import Mathlib

set_option maxHeartbeats 1000000

/- Verification of the audio analysis core of the `ortho` repository.

The TypeScript source is shallowly embedded: JavaScript numbers become real
numbers (exact arithmetic), `Float32Array`s become `List ℝ`, nullable values
become `Option`, and the small stateful per-frame filters become pure state
transition functions.  Definitions follow the source files
(`src/audio/voicing.ts`, `duration.ts`, `volume.ts`, `dsp.ts`, `lpc.ts`,
`pitch.ts`, `vowelTargets.ts`, `vowels.ts`, `peaks.ts`, `scoring.ts`,
`detectLpc.ts`) declaration by declaration. -/

/-! ## Generic fold helper -/

theorem foldl_induction {α σ : Type*} (f : σ → α → σ) (P : σ → Prop)
    (l : List α) (s : σ) (h0 : P s) (hstep : ∀ s a, P s → P (f s a)) :
    P (List.foldl f s l) := by
  induction l generalizing s with
  | nil => exact h0
  | cons x xs ih => exact ih _ (hstep _ _ h0)

theorem getD_eq_zero_of_all_zero {l : List ℝ} (h : ∀ y ∈ l, y = 0) (i : ℕ) :
    l.getD i 0 = 0 := by
  rcases lt_or_ge i l.length with hi | hi
  · rw [List.getD_eq_getElem l 0 hi]; exact h _ (l.getElem_mem hi)
  · rw [List.getD_eq_default l 0 hi]

/-! ## Voicing hysteresis (`src/audio/voicing.ts`) -/

def ONSET_FRAMES : ℕ := 3

def OFFSET_FRAMES : ℕ := 5

structure VoicingState where
  isVoicing : Bool
  framesAbove : ℕ
  framesBelow : ℕ
deriving DecidableEq, Repr

def initialVoicingState : VoicingState :=
  { isVoicing := false, framesAbove := 0, framesBelow := 0 }

def updateVoicing (rawVoicing : Bool) (state : VoicingState) : VoicingState :=
  if state.isVoicing then
    if !rawVoicing then
      let framesBelow := state.framesBelow + 1
      if framesBelow ≥ OFFSET_FRAMES then ⟨false, 0, 0⟩
      else ⟨true, 0, framesBelow⟩
    else ⟨true, 0, 0⟩
  else
    if rawVoicing then
      let framesAbove := state.framesAbove + 1
      if framesAbove ≥ ONSET_FRAMES then ⟨true, 0, 0⟩
      else ⟨false, framesAbove, 0⟩
    else ⟨false, 0, 0⟩

/-- Feed a whole sequence of raw per-frame voicing evidence through the
hysteresis filter, starting from the initial state. -/
def runVoicing (inputs : List Bool) : VoicingState :=
  inputs.foldl (fun s b => updateVoicing b s) initialVoicingState

/-- Length of the maximal suffix of `l` all of whose entries equal `b`
(the current run of consecutive `b` frames). -/
def trailingCount (b : Bool) (l : List Bool) : ℕ :=
  (l.reverse.takeWhile (fun x => x == b)).length

theorem trailingCount_nil (b : Bool) : trailingCount b [] = 0 := rfl

theorem trailingCount_append_same (b : Bool) (l : List Bool) :
    trailingCount b (l ++ [b]) = trailingCount b l + 1 := by
  simp [trailingCount, List.takeWhile_cons]

theorem trailingCount_append_ne {b x : Bool} (hx : x ≠ b) (l : List Bool) :
    trailingCount b (l ++ [x]) = 0 := by
  simp [trailingCount, List.takeWhile_cons, hx]

/-- Relation between the hysteresis counters and the current runs of
consecutive raw evidence. -/
def voicingRunInv (l : List Bool) (s : VoicingState) : Prop :=
  (s.isVoicing = false →
    s.framesAbove = trailingCount true l ∧ trailingCount true l ≤ 2) ∧
  (s.isVoicing = true →
    s.framesBelow = trailingCount false l ∧ trailingCount false l ≤ 4)

theorem runVoicing_append (l : List Bool) (b : Bool) :
    runVoicing (l ++ [b]) = updateVoicing b (runVoicing l) := by
  simp [runVoicing, List.foldl_append]

theorem updateVoicing_notVoicing_false {s : VoicingState}
    (h : s.isVoicing = false) : updateVoicing false s = ⟨false, 0, 0⟩ := by
  simp [updateVoicing, h]

theorem updateVoicing_notVoicing_true_lt {s : VoicingState}
    (h : s.isVoicing = false) (h3 : s.framesAbove + 1 < 3) :
    updateVoicing true s = ⟨false, s.framesAbove + 1, 0⟩ := by
  simp only [updateVoicing, h, Bool.false_eq_true, if_false, if_true]
  rw [if_neg (by rw [ONSET_FRAMES]; omega)]

theorem updateVoicing_notVoicing_true_ge {s : VoicingState}
    (h : s.isVoicing = false) (h3 : 3 ≤ s.framesAbove + 1) :
    updateVoicing true s = ⟨true, 0, 0⟩ := by
  simp only [updateVoicing, h, Bool.false_eq_true, if_false, if_true]
  rw [if_pos (by rw [ONSET_FRAMES]; omega)]

theorem updateVoicing_voicing_true {s : VoicingState}
    (h : s.isVoicing = true) : updateVoicing true s = ⟨true, 0, 0⟩ := by
  simp [updateVoicing, h]

theorem updateVoicing_voicing_false_lt {s : VoicingState}
    (h : s.isVoicing = true) (h5 : s.framesBelow + 1 < 5) :
    updateVoicing false s = ⟨true, 0, s.framesBelow + 1⟩ := by
  simp only [updateVoicing, h, Bool.not_false, if_true]
  rw [if_neg (by rw [OFFSET_FRAMES]; omega)]

theorem updateVoicing_voicing_false_ge {s : VoicingState}
    (h : s.isVoicing = true) (h5 : 5 ≤ s.framesBelow + 1) :
    updateVoicing false s = ⟨false, 0, 0⟩ := by
  simp only [updateVoicing, h, Bool.not_false, if_true]
  rw [if_pos (by rw [OFFSET_FRAMES]; omega)]

theorem runVoicing_runInv (l : List Bool) : voicingRunInv l (runVoicing l) := by
  induction l using List.reverseRecOn with
  | nil =>
    constructor
    · intro _; exact ⟨rfl, by norm_num [trailingCount_nil]⟩
    · intro h; simp [runVoicing, initialVoicingState] at h
  | append_singleton l b ih =>
    rw [runVoicing_append]
    obtain ⟨ihF, ihT⟩ := ih
    rcases hv : (runVoicing l).isVoicing with _ | _
    · obtain ⟨ha, ha2⟩ := ihF hv
      cases b
      · rw [updateVoicing_notVoicing_false hv]
        refine ⟨fun _ => ?_, fun h => by simp at h⟩
        rw [trailingCount_append_ne (by simp) l]
        exact ⟨rfl, by omega⟩
      · by_cases h3 : 3 ≤ (runVoicing l).framesAbove + 1
        · rw [updateVoicing_notVoicing_true_ge hv h3]
          refine ⟨fun h => by simp at h, fun _ => ?_⟩
          rw [trailingCount_append_ne (by simp) l]
          exact ⟨rfl, by omega⟩
        · rw [updateVoicing_notVoicing_true_lt hv (by omega)]
          refine ⟨fun _ => ?_, fun h => by simp at h⟩
          rw [trailingCount_append_same]
          exact ⟨by simp [ha], by omega⟩
    · obtain ⟨hb, hb4⟩ := ihT hv
      cases b
      · by_cases h5 : 5 ≤ (runVoicing l).framesBelow + 1
        · rw [updateVoicing_voicing_false_ge hv h5]
          refine ⟨fun _ => ?_, fun h => by simp at h⟩
          rw [trailingCount_append_ne (by simp) l]
          exact ⟨rfl, by omega⟩
        · rw [updateVoicing_voicing_false_lt hv (by omega)]
          refine ⟨fun h => by simp at h, fun _ => ?_⟩
          rw [trailingCount_append_same]
          exact ⟨by simp [hb], by omega⟩
      · rw [updateVoicing_voicing_true hv]
        refine ⟨fun h => by simp at h, fun _ => ?_⟩
        rw [trailingCount_append_ne (by simp) l]
        exact ⟨rfl, by omega⟩

/-- C1: starting from the initial state, the hysteresis filter switches from
`NotVoicing` to `Voicing` exactly on the 3rd consecutive raw-true frame
(a raw-false frame resets the onset count), and from `Voicing` to
`NotVoicing` exactly on the 5th consecutive raw-false frame (a raw-true frame
resets the offset count).  `trailingCount` measures the run of consecutive
raw frames already absorbed, so the next frame `b` is the 3rd (resp. 5th)
consecutive one precisely when the count equals 2 (resp. 4). -/
theorem voicing_hysteresis_switches (l : List Bool) (b : Bool) :
    ((runVoicing l).isVoicing = false →
      ((updateVoicing b (runVoicing l)).isVoicing = true ↔
        b = true ∧ trailingCount true l = 2)) ∧
    ((runVoicing l).isVoicing = true →
      ((updateVoicing b (runVoicing l)).isVoicing = false ↔
        b = false ∧ trailingCount false l = 4)) ∧
    ((runVoicing l).isVoicing = false → b = false →
      (updateVoicing b (runVoicing l)).framesAbove = 0) ∧
    ((runVoicing l).isVoicing = true → b = true →
      (updateVoicing b (runVoicing l)).framesBelow = 0) := by
  obtain ⟨ihF, ihT⟩ := runVoicing_runInv l
  refine ⟨?_, ?_, ?_, ?_⟩
  · intro hv
    obtain ⟨ha, ha2⟩ := ihF hv
    cases b
    · rw [updateVoicing_notVoicing_false hv]
      simp
    · by_cases h3 : 3 ≤ (runVoicing l).framesAbove + 1
      · rw [updateVoicing_notVoicing_true_ge hv h3]
        exact ⟨fun _ => ⟨rfl, by omega⟩, fun _ => rfl⟩
      · rw [updateVoicing_notVoicing_true_lt hv (by omega)]
        constructor
        · intro h; exact absurd h (by simp)
        · rintro ⟨_, h2⟩
          exact absurd (by omega : 3 ≤ (runVoicing l).framesAbove + 1) h3
  · intro hv
    obtain ⟨hb, hb4⟩ := ihT hv
    cases b
    · by_cases h5 : 5 ≤ (runVoicing l).framesBelow + 1
      · rw [updateVoicing_voicing_false_ge hv h5]
        exact ⟨fun _ => ⟨rfl, by omega⟩, fun _ => rfl⟩
      · rw [updateVoicing_voicing_false_lt hv (by omega)]
        constructor
        · intro h; exact absurd h (by simp)
        · rintro ⟨_, h4⟩
          exact absurd (by omega : 5 ≤ (runVoicing l).framesBelow + 1) h5
    · rw [updateVoicing_voicing_true hv]
      simp
  · intro hv hb
    subst hb
    rw [updateVoicing_notVoicing_false hv]
  · intro hv hb
    subst hb
    rw [updateVoicing_voicing_true hv]

/-- Witness for C1 at a concrete input: after two consecutive raw-true frames
the 3rd raw-true frame switches the state to `Voicing`. -/
theorem voicing_hysteresis_switches_witness :
    (updateVoicing true (runVoicing [true, true])).isVoicing = true :=
  ((voicing_hysteresis_switches [true, true] true).1 (by decide)).mpr
    ⟨rfl, by decide⟩

/-- Structural invariant preserved by every `updateVoicing` step. -/
def voicingCounterInv (s : VoicingState) : Prop :=
  s.framesAbove ≤ 2 ∧ s.framesBelow ≤ 4 ∧
    (s.isVoicing = true → s.framesAbove = 0) ∧
    (s.isVoicing = false → s.framesBelow = 0)

theorem updateVoicing_counterInv (s : VoicingState) (b : Bool)
    (h : voicingCounterInv s) : voicingCounterInv (updateVoicing b s) := by
  obtain ⟨h2, h4, hT, hF⟩ := h
  rcases hv : s.isVoicing with _ | _
  · cases b
    · rw [updateVoicing_notVoicing_false hv]
      refine ⟨by simp <;> omega, by simp <;> omega, fun h => by simp at h, fun _ => rfl⟩
    · by_cases h3 : 3 ≤ s.framesAbove + 1
      · rw [updateVoicing_notVoicing_true_ge hv h3]
        refine ⟨by simp <;> omega, by simp <;> omega, fun _ => rfl, fun h => by simp at h⟩
      · rw [updateVoicing_notVoicing_true_lt hv (by omega)]
        refine ⟨by simp <;> omega, by simp <;> omega, fun h => by simp at h, fun _ => rfl⟩
  · cases b
    · by_cases h5 : 5 ≤ s.framesBelow + 1
      · rw [updateVoicing_voicing_false_ge hv h5]
        refine ⟨by simp <;> omega, by simp <;> omega, fun h => by simp at h, fun _ => rfl⟩
      · rw [updateVoicing_voicing_false_lt hv (by omega)]
        refine ⟨by simp <;> omega, by simp <;> omega, fun _ => rfl, fun h => by simp at h⟩
    · rw [updateVoicing_voicing_true hv]
      refine ⟨by simp <;> omega, by simp <;> omega, fun _ => rfl, fun h => by simp at h⟩

theorem runVoicing_counterInv (l : List Bool) :
    voicingCounterInv (runVoicing l) :=
  foldl_induction _ voicingCounterInv l initialVoicingState
    (by simp [voicingCounterInv, initialVoicingState])
    (fun s b hs => updateVoicing_counterInv s b hs)

/-- C10: in every state reachable from the initial state, `framesAbove ≤ 2`
and is nonzero only while not voicing, `framesBelow ≤ 4` and is nonzero only
while voicing, and the two counters are never both nonzero. -/
theorem voicing_counters_bounded (l : List Bool) :
    (runVoicing l).framesAbove ≤ 2 ∧
    ((runVoicing l).framesAbove ≠ 0 → (runVoicing l).isVoicing = false) ∧
    (runVoicing l).framesBelow ≤ 4 ∧
    ((runVoicing l).framesBelow ≠ 0 → (runVoicing l).isVoicing = true) ∧
    ¬((runVoicing l).framesAbove ≠ 0 ∧ (runVoicing l).framesBelow ≠ 0) := by
  obtain ⟨h2, h4, hT, hF⟩ := runVoicing_counterInv l
  refine ⟨h2, ?_, h4, ?_, ?_⟩
  · intro ha
    rcases hv : (runVoicing l).isVoicing with _ | _
    · rfl
    · exact absurd (hT hv) ha
  · intro hb
    rcases hv : (runVoicing l).isVoicing with _ | _
    · exact absurd (hF hv) hb
    · rfl
  · rintro ⟨ha, hb⟩
    rcases hv : (runVoicing l).isVoicing with _ | _
    · exact hb (hF hv)
    · exact ha (hT hv)

/-- Witness for C10 at a concrete input. -/
theorem voicing_counters_bounded_witness :
    (runVoicing [true, false, true]).framesAbove ≤ 2 ∧
      (runVoicing [true, false, true]).isVoicing = false :=
  ⟨(voicing_counters_bounded [true, false, true]).1,
    (voicing_counters_bounded [true, false, true]).2.1 (by decide)⟩

/-! ## Duration accumulator (`src/audio/duration.ts`) -/

structure DurationState where
  isVoicing : Bool
  currentDuration : ℝ

def initialDurationState : DurationState :=
  { isVoicing := false, currentDuration := 0 }

def trackDuration (isVoicing : Bool) (dt : ℝ) (state : DurationState) :
    DurationState :=
  if isVoicing then
    { isVoicing := true, currentDuration := state.currentDuration + dt }
  else
    { isVoicing := false, currentDuration := 0 }

/-- C5: `trackDuration` adds `dt` to the accumulated duration on every
voicing-true frame and resets it to exactly 0 on any voicing-false frame;
consequently three voicing-true frames with `dt = 0.1` from the initial state
read 0.1, 0.2, 0.3, and a subsequent voicing-false frame reads 0. -/
theorem trackDuration_spec :
    (∀ (dt : ℝ) (state : DurationState),
      (trackDuration true dt state).currentDuration =
        state.currentDuration + dt) ∧
    (∀ (dt : ℝ) (state : DurationState),
      (trackDuration false dt state).currentDuration = 0) ∧
    (trackDuration true 0.1 initialDurationState).currentDuration = 0.1 ∧
    (trackDuration true 0.1
      (trackDuration true 0.1 initialDurationState)).currentDuration = 0.2 ∧
    (trackDuration true 0.1 (trackDuration true 0.1
      (trackDuration true 0.1 initialDurationState))).currentDuration = 0.3 ∧
    (trackDuration false 0.1 (trackDuration true 0.1 (trackDuration true 0.1
      (trackDuration true 0.1 initialDurationState)))).currentDuration = 0 := by
  refine ⟨fun dt state => rfl, fun dt state => rfl, ?_, ?_, ?_, ?_⟩ <;>
    simp [trackDuration, initialDurationState] <;> norm_num

/-! ## RMS volume (`src/audio/volume.ts`) -/

namespace Volume

/-- `computeRMS` from `volume.ts`: root mean square clamped into `[0, 1]`
(`Math.min(1, Math.max(0, rms))`), with an early 0 for an empty buffer. -/
noncomputable def computeRMS (buffer : List ℝ) : ℝ :=
  if buffer.length = 0 then 0
  else
    min 1 (max 0 (Real.sqrt ((buffer.map fun x => x * x).sum / buffer.length)))

end Volume

/-- C8: the RMS volume is in `[0, 1]` for every input buffer, and is exactly 0
for an all-zero buffer of any length. -/
theorem computeRMS_range (buffer : List ℝ) :
    (0 ≤ Volume.computeRMS buffer ∧ Volume.computeRMS buffer ≤ 1) ∧
    ((∀ x ∈ buffer, x = 0) → Volume.computeRMS buffer = 0) := by
  constructor
  · unfold Volume.computeRMS
    by_cases h : buffer.length = 0
    · simp [h]
    · rw [if_neg h]
      constructor
      · exact le_min (by norm_num) (le_max_left 0 _)
      · exact min_le_left 1 _
  · intro hz
    unfold Volume.computeRMS
    by_cases h : buffer.length = 0
    · simp [h]
    · rw [if_neg h]
      have hsum : (buffer.map fun x => x * x).sum = 0 := by
        apply List.sum_eq_zero
        intro y hy
        obtain ⟨x, hx, hxy⟩ := List.mem_map.mp hy
        rw [← hxy, hz x hx, mul_zero]
      rw [hsum, zero_div, Real.sqrt_zero]
      norm_num

/-- Witness for C8 at a concrete all-zero buffer. -/
theorem computeRMS_range_witness :
    Volume.computeRMS [0, 0, 0] = 0 ∧ 0 ≤ Volume.computeRMS [0, 0, 0] :=
  ⟨(computeRMS_range [0, 0, 0]).2 (by simp),
    ((computeRMS_range [0, 0, 0]).1).1⟩

/-! ## LPC analysis (`src/audio/lpc.ts`) -/

def LPC_ORDER : ℕ := 12

noncomputable def decimateSignal (buffer : List ℝ) (factor : ℕ) : List ℝ :=
  (List.range (buffer.length / factor)).map fun i =>
    ((List.range factor).map fun j => buffer.getD (i * factor + j) 0).sum / factor

noncomputable def computeAutocorrelation (signal : List ℝ) (order : ℕ) : List ℝ :=
  (List.range (order + 1)).map fun k =>
    ((List.range (signal.length - k)).map fun i =>
      signal.getD i 0 * signal.getD (i + k) 0).sum

/-- The running-error clamp of the Levinson-Durbin loop: an error term that
reaches zero or below is floored to `1e-10`. -/
noncomputable def clampError (E : ℝ) : ℝ := if E ≤ 0 then 1e-10 else E

/-- One iteration of the Levinson-Durbin recursion: reflection coefficient
`ki = lambda / E`, in-place coefficient update against the saved previous
coefficients, and the clamped error update `E := E * (1 - ki^2)`. -/
noncomputable def ldStep (R : List ℝ) (st : List ℝ × ℝ) (i : ℕ) : List ℝ × ℝ :=
  let a := st.1
  let E := st.2
  let lambda := R.getD (i + 1) 0 -
    ((List.range i).map fun j => a.getD j 0 * R.getD (i - j) 0).sum
  let ki := lambda / E
  let a' := (List.range a.length).map fun j =>
    if j = i then ki
    else if j < i then a.getD j 0 - ki * a.getD (i - 1 - j) 0
    else a.getD j 0
  (a', clampError (E * (1 - ki * ki)))

structure LpcResult where
  coeffs : List ℝ
  gain : ℝ

noncomputable def levinsonDurbin (R : List ℝ) (order : ℕ) : LpcResult :=
  if R.getD 0 0 = 0 then ⟨List.replicate order 0, 1⟩
  else
    let st := (List.range order).foldl (ldStep R) (List.replicate order 0, R.getD 0 0)
    ⟨st.1, Real.sqrt st.2⟩

/-- C7: when `R[0] = 0` the Levinson-Durbin recursion returns all-zero
coefficients and gain exactly 1 through the early branch (no iteration and
hence no division is performed); for an all-zero autocorrelation vector the
outputs are therefore the finite values 0 and 1; and the running error term
is clamped to the floor `1e-10` whenever it reaches zero or below, so the
clamped error is always strictly positive. -/
theorem levinsonDurbin_silence (R : List ℝ) (order : ℕ) :
    (R.getD 0 0 = 0 → levinsonDurbin R order = ⟨List.replicate order 0, 1⟩) ∧
    ((∀ x ∈ R, x = 0) →
      (∀ c ∈ (levinsonDurbin R order).coeffs, c = 0) ∧
      (levinsonDurbin R order).gain = 1) ∧
    (∀ E : ℝ, E ≤ 0 → clampError E = 1e-10) ∧
    (∀ E : ℝ, 0 < clampError E) := by
  have hzero : R.getD 0 0 = 0 → levinsonDurbin R order = ⟨List.replicate order 0, 1⟩ := by
    intro h
    unfold levinsonDurbin
    rw [if_pos h]
  refine ⟨hzero, ?_, ?_, ?_⟩
  · intro hall
    rw [hzero (getD_eq_zero_of_all_zero hall 0)]
    exact ⟨fun c hc => List.eq_of_mem_replicate hc, rfl⟩
  · intro E hE
    unfold clampError
    rw [if_pos hE]
  · intro E
    unfold clampError
    by_cases hE : E ≤ 0
    · rw [if_pos hE]; norm_num
    · rw [if_neg hE]; linarith [not_le.mp hE]

/-- Witness for C7 at the concrete all-zero autocorrelation `[0, 0, 0]` and
a concrete nonpositive error term. -/
theorem levinsonDurbin_silence_witness :
    (∀ c ∈ (levinsonDurbin [0, 0, 0] 12).coeffs, c = 0) ∧
      (levinsonDurbin [0, 0, 0] 12).gain = 1 ∧ clampError (-1) = 1e-10 :=
  ⟨((levinsonDurbin_silence [0, 0, 0] 12).2.1 (by simp)).1,
    ((levinsonDurbin_silence [0, 0, 0] 12).2.1 (by simp)).2,
    (levinsonDurbin_silence [0, 0, 0] 12).2.2.1 (-1) (by norm_num)⟩

/-! ## Vowel targets and classifiers (`src/audio/vowelTargets.ts`) -/

/-- The seven French vowels; `eps` stands for the source's `ɛ`. -/
inductive Vowel where
  | a | e | eps | i | o | u | y
deriving DecidableEq, Repr

structure VowelTarget where
  vowel : Vowel
  f1 : ℝ
  f2 : ℝ
  f3 : ℝ

def VOWEL_TARGETS : List VowelTarget :=
  [⟨.a, 700, 1300, 2550⟩, ⟨.e, 380, 2100, 2700⟩, ⟨.eps, 550, 1800, 2600⟩,
   ⟨.i, 270, 2300, 3100⟩, ⟨.o, 380, 700, 2500⟩, ⟨.u, 310, 700, 2200⟩,
   ⟨.y, 260, 1800, 2100⟩]

structure RatioTarget where
  vowel : Vowel
  logR1 : ℝ
  logR2 : ℝ

noncomputable def VOWEL_RATIO_TARGETS : List RatioTarget :=
  VOWEL_TARGETS.map fun t => ⟨t.vowel, Real.log (t.f2 / t.f1), Real.log (t.f3 / t.f2)⟩

noncomputable def hzToBark (hz : ℝ) : ℝ :=
  13 * Real.arctan (0.00076 * hz) + 3.5 * Real.arctan ((hz / 7500) ^ 2)

/-- The nearest-target loop of `classifyVowelByRatios`, parameterized by the
signal's two log formant ratios.  `none` as the running distance models the
initial `Infinity`, which every finite distance beats. -/
noncomputable def selectByRatios (logR1 logR2 : ℝ) : Vowel :=
  (VOWEL_RATIO_TARGETS.foldl
    (fun (best : Vowel × Option ℝ) t =>
      let dr1 := logR1 - t.logR1
      let dr2 := logR2 - t.logR2
      let dist := 2 * dr1 * dr1 + dr2 * dr2
      match best.2 with
      | none => (t.vowel, some dist)
      | some bd => if dist < bd then (t.vowel, some dist) else best)
    ((VOWEL_RATIO_TARGETS.headD ⟨.a, 0, 0⟩).vowel, none)).1

noncomputable def classifyVowelByRatios (f1 f2 f3 : ℝ) : Vowel :=
  selectByRatios (Real.log (f2 / f1)) (Real.log (f3 / f2))

/-- C4: the ratio-invariant classifier returns the same vowel after uniformly
scaling all three formants by any positive factor `k`, because the formant
ratios `f2/f1` and `f3/f2` it classifies on are unchanged. -/
theorem classifyVowelByRatios_scale_invariant (f1 f2 f3 k : ℝ)
    (hf1 : 0 < f1) (hf2 : 0 < f2) (hf3 : 0 < f3) (hk : 0 < k) :
    classifyVowelByRatios (k * f1) (k * f2) (k * f3) =
      classifyVowelByRatios f1 f2 f3 := by
  unfold classifyVowelByRatios
  rw [mul_div_mul_left f2 f1 (ne_of_gt hk), mul_div_mul_left f3 f2 (ne_of_gt hk)]

/-- Witness for C4: doubling the exact target formants of `a` does not change
the classification. -/
theorem classifyVowelByRatios_scale_invariant_witness :
    classifyVowelByRatios (2 * 700) (2 * 1300) (2 * 2550) =
      classifyVowelByRatios 700 1300 2550 :=
  classifyVowelByRatios_scale_invariant 700 1300 2550 2
    (by norm_num) (by norm_num) (by norm_num) (by norm_num)

/-! ## Temporal vowel smoothing (`src/audio/vowels.ts`) -/

def WINDOW_SIZE : ℕ := 7

def WEIGHTS : List ℚ := [0.37, 0.44, 0.52, 0.61, 0.72, 0.85, 1.0]

def MIN_WEIGHTED_CONSENSUS : ℚ := 1.5

structure VowelSmoothingState where
  buffer : List (Option Vowel)
deriving DecidableEq, Repr

def initialVowelSmoothingState : VowelSmoothingState := ⟨[]⟩

/-- `weightedCounts.set(v, (weightedCounts.get(v) ?? 0) + w)`: a JavaScript
`Map` updates an existing key in place and appends a fresh key at the end. -/
def upsertWeight (m : List (Vowel × ℚ)) (v : Vowel) (w : ℚ) : List (Vowel × ℚ) :=
  match m with
  | [] => [(v, w)]
  | (k, s) :: t => if k = v then (k, s + w) :: t else (k, s) :: upsertWeight t v w

/-- The per-vowel recency-weighted sums of the window, with the fixed weight
vector right-aligned against a partially filled buffer. -/
def weightedCounts (buffer : List (Option Vowel)) : List (Vowel × ℚ) :=
  (buffer.zip (WEIGHTS.drop (WINDOW_SIZE - buffer.length))).foldl
    (fun m e => match e.1 with
      | none => m
      | some v => upsertWeight m v e.2) []

/-- The selection loop over the weighted counts: start from the first key
with score 0, keep strict improvements, then apply the 1.5 consensus floor. -/
def pickSmoothed (m : List (Vowel × ℚ)) : Option Vowel :=
  match m with
  | [] => none
  | (k0, _) :: _ =>
    let best := m.foldl (fun (acc : Vowel × ℚ) e => if e.2 > acc.2 then e else acc) (k0, 0)
    if best.2 ≥ MIN_WEIGHTED_CONSENSUS then some best.1 else none

def smoothVowel (rawVowel : Option Vowel) (state : VowelSmoothingState) :
    Option Vowel × VowelSmoothingState :=
  let buffer := if state.buffer.length ≥ WINDOW_SIZE
    then state.buffer.drop 1 ++ [rawVowel]
    else state.buffer ++ [rawVowel]
  (pickSmoothed (weightedCounts buffer), ⟨buffer⟩)

/-- Weighted sum attached to vowel `v` by a list of (entry, weight) pairs. -/
def optWeightSum : List (Option Vowel × ℚ) → Vowel → ℚ
  | [], _ => 0
  | e :: t, v => (if e.1 = some v then e.2 else 0) + optWeightSum t v

/-- Reference weighted sum for one vowel over a window, stated directly as
the sum of the right-aligned weights at the positions holding that vowel. -/
def vowelWeight (buffer : List (Option Vowel)) (v : Vowel) : ℚ :=
  optWeightSum (buffer.zip (WEIGHTS.drop (WINDOW_SIZE - buffer.length))) v

/-- Sum of the values attached to key `v` in an association list. -/
def weightIn : List (Vowel × ℚ) → Vowel → ℚ
  | [], _ => 0
  | e :: t, v => (if e.1 = v then e.2 else 0) + weightIn t v

theorem weightIn_upsert (m : List (Vowel × ℚ)) (v u : Vowel) (w : ℚ) :
    weightIn (upsertWeight m v w) u = weightIn m u + if u = v then w else 0 := by
  induction m with
  | nil =>
    by_cases h : u = v
    · simp [upsertWeight, weightIn, h]
    · simp [upsertWeight, weightIn, h, Ne.symm h]
  | cons e t ih =>
    obtain ⟨k, s⟩ := e
    by_cases hk : k = v
    · subst hk
      by_cases hu : u = k
      · subst hu
        simp only [upsertWeight, if_pos rfl, weightIn, if_pos rfl, if_true]
        ring
      · have hku : ¬(k = u) := fun h => hu h.symm
        simp only [upsertWeight, if_pos rfl, weightIn, if_neg hku, if_neg hu, if_true]
        ring
    · by_cases hu : u = k
      · subst hu
        have huv : ¬(u = v) := fun h => hk (h ▸ rfl)
        simp only [upsertWeight, if_neg hk, weightIn, if_pos rfl, ih, if_neg huv, if_true]
        ring
      · have hku : ¬(k = u) := fun h => hu h.symm
        simp only [upsertWeight, if_neg hk, weightIn, if_neg hku, ih]
        ring

theorem weightIn_foldl (es : List (Option Vowel × ℚ)) (m : List (Vowel × ℚ)) (u : Vowel) :
    weightIn (es.foldl (fun m e => match e.1 with
      | none => m
      | some v => upsertWeight m v e.2) m) u = weightIn m u + optWeightSum es u := by
  induction es generalizing m with
  | nil => simp [optWeightSum]
  | cons e t ih =>
    obtain ⟨ov, w⟩ := e
    cases ov with
    | none =>
      simp only [List.foldl_cons, optWeightSum]
      rw [ih]
      simp
    | some v =>
      simp only [List.foldl_cons, optWeightSum]
      rw [ih, weightIn_upsert]
      by_cases h : u = v
      · subst h; simp; ring
      · simp only [Option.some.injEq]
        rw [if_neg h, if_neg (fun hh => h hh.symm)]
        ring

theorem weightIn_weightedCounts (buffer : List (Option Vowel)) (u : Vowel) :
    weightIn (weightedCounts buffer) u = vowelWeight buffer u := by
  unfold weightedCounts vowelWeight
  rw [weightIn_foldl]
  simp [weightIn]

/-- All values stored in the weighted-count map are strictly positive. -/
def valuesPos (m : List (Vowel × ℚ)) : Prop := ∀ p ∈ m, 0 < p.2

theorem upsert_valuesPos {m : List (Vowel × ℚ)} {v : Vowel} {w : ℚ}
    (hm : valuesPos m) (hw : 0 < w) : valuesPos (upsertWeight m v w) := by
  induction m with
  | nil => intro p hp; simp [upsertWeight] at hp; rw [hp]; exact hw
  | cons e t ih =>
    obtain ⟨k, s⟩ := e
    have hs : 0 < s := hm (k, s) (List.mem_cons_self _ _)
    have ht : valuesPos t := fun p hp => hm p (List.mem_cons_of_mem _ hp)
    by_cases hk : k = v
    · intro p hp
      simp only [upsertWeight, if_pos hk] at hp
      rcases List.mem_cons.mp hp with h | h
      · rw [h]; simpa using by linarith
      · exact ht p h
    · intro p hp
      simp only [upsertWeight, if_neg hk] at hp
      rcases List.mem_cons.mp hp with h | h
      · rw [h]; exact hs
      · exact ih ht p h

theorem foldl_induction_mem {α σ : Type*} (f : σ → α → σ) (P : σ → Prop)
    (l : List α) (s : σ) (h0 : P s) (hstep : ∀ s a, a ∈ l → P s → P (f s a)) :
    P (List.foldl f s l) := by
  induction l generalizing s with
  | nil => exact h0
  | cons x xs ih =>
    exact ih _ (hstep _ _ (List.mem_cons_self _ _) h0)
      (fun s a ha hs => hstep s a (List.mem_cons_of_mem _ ha) hs)

theorem weights_pos : ∀ w ∈ WEIGHTS, 0 < w := by
  intro w hw
  simp only [WEIGHTS, List.mem_cons, List.not_mem_nil, or_false] at hw
  rcases hw with h | h | h | h | h | h | h <;> rw [h] <;> norm_num

theorem weightedCounts_valuesPos (buffer : List (Option Vowel)) :
    valuesPos (weightedCounts buffer) := by
  unfold weightedCounts
  apply foldl_induction_mem _ valuesPos _ []
  · intro p hp; simp at hp
  · intro m e he hm
    have h2 := (List.of_mem_zip he).2
    have h3 := weights_pos _ (List.mem_of_mem_drop h2)
    cases hov : e.1 with
    | none => simpa [hov] using hm
    | some v => simpa [hov] using upsert_valuesPos hm h3

theorem upsert_keys_subset {m : List (Vowel × ℚ)} {v x : Vowel} {w : ℚ}
    (h : x ∈ (upsertWeight m v w).map Prod.fst) :
    x ∈ m.map Prod.fst ∨ x = v := by
  induction m with
  | nil => simp [upsertWeight] at h; right; exact h
  | cons e t ih =>
    obtain ⟨k, s⟩ := e
    by_cases hk : k = v
    · simp only [upsertWeight, if_pos hk, List.map_cons, List.mem_cons] at h ⊢
      tauto
    · simp only [upsertWeight, if_neg hk, List.map_cons, List.mem_cons] at h ⊢
      rcases h with h | h
      · tauto
      · rcases ih h with h2 | h2 <;> tauto

theorem upsert_keys_nodup {m : List (Vowel × ℚ)} {v : Vowel} {w : ℚ}
    (h : (m.map Prod.fst).Nodup) : ((upsertWeight m v w).map Prod.fst).Nodup := by
  induction m with
  | nil => simp [upsertWeight]
  | cons e t ih =>
    obtain ⟨k, s⟩ := e
    simp only [List.map_cons, List.nodup_cons] at h
    obtain ⟨hk_nin, ht⟩ := h
    by_cases hk : k = v
    · simp only [upsertWeight, if_pos hk, List.map_cons, List.nodup_cons]
      exact ⟨hk_nin, ht⟩
    · simp only [upsertWeight, if_neg hk, List.map_cons, List.nodup_cons]
      refine ⟨fun hx => ?_, ih ht⟩
      rcases upsert_keys_subset hx with h2 | h2
      · exact hk_nin h2
      · exact hk h2

theorem weightedCounts_keys_nodup (buffer : List (Option Vowel)) :
    ((weightedCounts buffer).map Prod.fst).Nodup := by
  unfold weightedCounts
  apply foldl_induction _ (fun m => (List.map Prod.fst m).Nodup) _ [] (by simp)
  intro m e hm
  cases hov : e.1 with
  | none => simpa [hov] using hm
  | some v => simpa [hov] using upsert_keys_nodup hm

theorem weightIn_eq_zero_of_not_mem {m : List (Vowel × ℚ)} {u : Vowel}
    (h : u ∉ m.map Prod.fst) : weightIn m u = 0 := by
  induction m with
  | nil => rfl
  | cons e t ih =>
    simp only [List.map_cons, List.mem_cons, not_or] at h
    obtain ⟨h1, h2⟩ := h
    have hne : ¬(e.1 = u) := fun hh => h1 hh.symm
    simp only [weightIn, if_neg hne, ih h2, add_zero]

theorem weightIn_eq_of_mem {m : List (Vowel × ℚ)} {v : Vowel} {s : ℚ}
    (hnd : (m.map Prod.fst).Nodup) (h : (v, s) ∈ m) : weightIn m v = s := by
  induction m with
  | nil => simp at h
  | cons e t ih =>
    simp only [List.map_cons, List.nodup_cons] at hnd
    obtain ⟨hnin, hnd2⟩ := hnd
    rcases List.mem_cons.mp h with h | h
    · rw [← h]
      simp only [weightIn, if_pos rfl, if_true]
      have : v ∉ t.map Prod.fst := by rw [← h] at hnin; exact hnin
      rw [weightIn_eq_zero_of_not_mem this, add_zero]
    · have hne : e.1 ≠ v := by
        intro hh
        exact hnin (hh ▸ List.mem_map_of_mem Prod.fst h)
      simp only [weightIn, if_neg hne, ih hnd2 h, zero_add]

theorem mem_of_weightIn_ne_zero {m : List (Vowel × ℚ)} {u : Vowel}
    (h : weightIn m u ≠ 0) : u ∈ m.map Prod.fst := by
  by_contra hn
  exact h (weightIn_eq_zero_of_not_mem hn)

/-- The strict-improvement selection fold dominates its seed and every
element of the list. -/
theorem selectFold_ge (m : List (Vowel × ℚ)) (acc : Vowel × ℚ) :
    acc.2 ≤ (m.foldl (fun (acc : Vowel × ℚ) e => if e.2 > acc.2 then e else acc) acc).2 ∧
    ∀ e ∈ m, e.2 ≤ (m.foldl (fun (acc : Vowel × ℚ) e => if e.2 > acc.2 then e else acc) acc).2 := by
  induction m generalizing acc with
  | nil => exact ⟨le_refl _, by simp⟩
  | cons x t ih =>
    simp only [List.foldl_cons]
    have step : acc.2 ≤ (if x.2 > acc.2 then x else acc).2 ∧
        x.2 ≤ (if x.2 > acc.2 then x else acc).2 := by
      by_cases hx : x.2 > acc.2
      · rw [if_pos hx]; exact ⟨le_of_lt hx, le_refl _⟩
      · rw [if_neg hx]; exact ⟨le_refl _, le_of_not_lt hx⟩
    obtain ⟨ih1, ih2⟩ := ih (if x.2 > acc.2 then x else acc)
    refine ⟨le_trans step.1 ih1, ?_⟩
    intro e he
    rcases List.mem_cons.mp he with h | h
    · exact le_trans (h ▸ step.2) ih1
    · exact ih2 e h

/-- The selection fold returns either its seed or an element of the list. -/
theorem selectFold_mem (m : List (Vowel × ℚ)) (acc : Vowel × ℚ) :
    (m.foldl (fun (acc : Vowel × ℚ) e => if e.2 > acc.2 then e else acc) acc) = acc ∨
    (m.foldl (fun (acc : Vowel × ℚ) e => if e.2 > acc.2 then e else acc) acc) ∈ m := by
  induction m generalizing acc with
  | nil => left; rfl
  | cons x t ih =>
    simp only [List.foldl_cons]
    rcases ih (if x.2 > acc.2 then x else acc) with h | h
    · rw [h]
      by_cases hx : x.2 > acc.2
      · rw [if_pos hx]; right; exact List.mem_cons_self _ _
      · rw [if_neg hx]; left; rfl
    · right; exact List.mem_cons_of_mem _ h

theorem weightIn_le_selectFold {m : List (Vowel × ℚ)}
    (hnd : (m.map Prod.fst).Nodup) (k0 u : Vowel) :
    weightIn m u ≤
      (m.foldl (fun (acc : Vowel × ℚ) e => if e.2 > acc.2 then e else acc) (k0, 0)).2 := by
  by_cases h0 : weightIn m u = 0
  · rw [h0]
    simpa using (selectFold_ge m (k0, 0)).1
  · obtain ⟨p, hp, hpu⟩ := List.mem_map.mp (mem_of_weightIn_ne_zero h0)
    have hmem : (u, p.2) ∈ m := by rw [← hpu, Prod.mk.eta]; exact hp
    rw [weightIn_eq_of_mem hnd hmem]
    exact (selectFold_ge m (k0, 0)).2 (u, p.2) hmem

theorem selectFold_best_weightIn {m : List (Vowel × ℚ)}
    (hnd : (m.map Prod.fst).Nodup) (k0 : Vowel)
    (h : 0 < (m.foldl (fun (acc : Vowel × ℚ) e => if e.2 > acc.2 then e else acc) (k0, 0)).2) :
    weightIn m
      (m.foldl (fun (acc : Vowel × ℚ) e => if e.2 > acc.2 then e else acc) (k0, 0)).1 =
    (m.foldl (fun (acc : Vowel × ℚ) e => if e.2 > acc.2 then e else acc) (k0, 0)).2 := by
  rcases selectFold_mem m (k0, 0) with hm | hm
  · rw [hm] at h; simp at h
  · exact weightIn_eq_of_mem hnd (Prod.mk.eta.symm ▸ hm)

theorem pickSmoothed_some {m : List (Vowel × ℚ)} {v : Vowel}
    (hnd : (m.map Prod.fst).Nodup) (h : pickSmoothed m = some v) :
    (∀ u, weightIn m u ≤ weightIn m v) ∧ MIN_WEIGHTED_CONSENSUS ≤ weightIn m v := by
  cases m with
  | nil => simp [pickSmoothed] at h
  | cons e rest =>
    obtain ⟨k0, s0⟩ := e
    simp only [pickSmoothed] at h
    by_cases hge :
        (((k0, s0) :: rest).foldl
          (fun (acc : Vowel × ℚ) e => if e.2 > acc.2 then e else acc) (k0, 0)).2 ≥
        MIN_WEIGHTED_CONSENSUS
    · rw [if_pos hge] at h
      have hv := Option.some.inj h
      have hpos : (0 : ℚ) <
          (((k0, s0) :: rest).foldl
            (fun (acc : Vowel × ℚ) e => if e.2 > acc.2 then e else acc) (k0, 0)).2 := by
        have : (0 : ℚ) < MIN_WEIGHTED_CONSENSUS := by norm_num [MIN_WEIGHTED_CONSENSUS]
        linarith
      have hbw := selectFold_best_weightIn hnd k0 hpos
      rw [← hv]
      constructor
      · intro u
        rw [hbw]
        exact weightIn_le_selectFold hnd k0 u
      · rw [hbw]; exact hge
    · rw [if_neg hge] at h
      cases h

theorem pickSmoothed_none {m : List (Vowel × ℚ)}
    (hnd : (m.map Prod.fst).Nodup) :
    pickSmoothed m = none ↔ ∀ u, weightIn m u < MIN_WEIGHTED_CONSENSUS := by
  cases m with
  | nil =>
    constructor
    · intro _ u
      norm_num [weightIn, MIN_WEIGHTED_CONSENSUS]
    · intro _
      rfl
  | cons e rest =>
    obtain ⟨k0, s0⟩ := e
    simp only [pickSmoothed]
    by_cases hge :
        (((k0, s0) :: rest).foldl
          (fun (acc : Vowel × ℚ) e => if e.2 > acc.2 then e else acc) (k0, 0)).2 ≥
        MIN_WEIGHTED_CONSENSUS
    · rw [if_pos hge]
      constructor
      · intro h; cases h
      · intro hall
        have hpos : (0 : ℚ) <
            (((k0, s0) :: rest).foldl
              (fun (acc : Vowel × ℚ) e => if e.2 > acc.2 then e else acc) (k0, 0)).2 := by
          have : (0 : ℚ) < MIN_WEIGHTED_CONSENSUS := by norm_num [MIN_WEIGHTED_CONSENSUS]
          linarith
        have hbw := selectFold_best_weightIn hnd k0 hpos
        have hlt := hall (((k0, s0) :: rest).foldl
          (fun (acc : Vowel × ℚ) e => if e.2 > acc.2 then e else acc) (k0, 0)).1
        rw [hbw] at hlt
        exact absurd hge (not_le.mpr hlt)
    · rw [if_neg hge]
      simp only [true_iff]
      intro u
      have := weightIn_le_selectFold hnd k0 u
      have hlt := not_le.mp hge
      linarith

/-- C6: `smoothVowel` pushes the raw detection into the rolling window
(evicting the oldest entry when the window already holds 7 entries), weighs
the entries with the right-aligned weight vector, and emits the vowel with
the largest weighted sum exactly when that sum reaches the 1.5 consensus
floor, emitting absent otherwise; in particular the full window
`[a,a,a,∅,∅,∅,∅]` (oldest to newest) emits absent and `[a,a,a,a,∅,∅,∅]`
emits `a`. -/
theorem smoothVowel_spec (rawVowel : Option Vowel) (state : VowelSmoothingState)
    (hlen : state.buffer.length ≤ WINDOW_SIZE) :
    ((smoothVowel rawVowel state).2.buffer =
      if state.buffer.length ≥ WINDOW_SIZE then state.buffer.drop 1 ++ [rawVowel]
      else state.buffer ++ [rawVowel]) ∧
    (smoothVowel rawVowel state).2.buffer.length ≤ WINDOW_SIZE ∧
    (∀ v, (smoothVowel rawVowel state).1 = some v →
      (∀ u, vowelWeight (smoothVowel rawVowel state).2.buffer u ≤
        vowelWeight (smoothVowel rawVowel state).2.buffer v) ∧
      MIN_WEIGHTED_CONSENSUS ≤ vowelWeight (smoothVowel rawVowel state).2.buffer v) ∧
    ((smoothVowel rawVowel state).1 = none ↔
      ∀ u, vowelWeight (smoothVowel rawVowel state).2.buffer u <
        MIN_WEIGHTED_CONSENSUS) ∧
    (smoothVowel none ⟨[some .a, some .a, some .a, none, none, none]⟩).1 = none ∧
    (smoothVowel none ⟨[some .a, some .a, some .a, some .a, none, none]⟩).1 = some .a := by
  refine ⟨rfl, ?_, ?_, ?_, ?_, ?_⟩
  · show (if state.buffer.length ≥ WINDOW_SIZE then state.buffer.drop 1 ++ [rawVowel]
      else state.buffer ++ [rawVowel]).length ≤ WINDOW_SIZE
    by_cases h : state.buffer.length ≥ WINDOW_SIZE
    · rw [if_pos h]
      simp only [List.length_append, List.length_drop, List.length_cons,
        List.length_nil, WINDOW_SIZE] at hlen h ⊢
      omega
    · rw [if_neg h]
      simp only [List.length_append, List.length_cons, List.length_nil,
        WINDOW_SIZE] at hlen h ⊢
      omega
  · intro v hv
    have hnd := weightedCounts_keys_nodup (smoothVowel rawVowel state).2.buffer
    have := pickSmoothed_some hnd hv
    simpa only [weightIn_weightedCounts] using this
  · have hnd := weightedCounts_keys_nodup (smoothVowel rawVowel state).2.buffer
    have := pickSmoothed_none (m := weightedCounts (smoothVowel rawVowel state).2.buffer) hnd
    simpa only [weightIn_weightedCounts] using this
  · norm_num [smoothVowel, weightedCounts, pickSmoothed, upsertWeight,
      WEIGHTS, WINDOW_SIZE, MIN_WEIGHTED_CONSENSUS, List.zip]
  · norm_num [smoothVowel, weightedCounts, pickSmoothed, upsertWeight,
      WEIGHTS, WINDOW_SIZE, MIN_WEIGHTED_CONSENSUS, List.zip]

/-- Witness for C6 at concrete inputs: the two example windows, plus the
eviction shape at a full window. -/
theorem smoothVowel_spec_witness :
    (smoothVowel none ⟨[some .a, some .a, some .a, none, none, none]⟩).1 = none ∧
    (smoothVowel none ⟨[some .a, some .a, some .a, some .a, none, none]⟩).1 = some .a :=
  ⟨(smoothVowel_spec none ⟨[some .a, some .a, some .a, none, none, none]⟩
      (by norm_num [WINDOW_SIZE])).2.2.2.2.1,
    (smoothVowel_spec none ⟨[some .a, some .a, some .a, some .a, none, none]⟩
      (by norm_num [WINDOW_SIZE])).2.2.2.2.2⟩

/-! ## Spectral primitives (`src/audio/dsp.ts`) -/

def ENERGY_THRESHOLD : ℝ := 0.01

def PEAK_MAGNITUDE_THRESHOLD : ℝ := 0.001

namespace Dsp

/-- The unclamped `computeRMS` of `dsp.ts` (used by the vowel detectors as an
energy gate). -/
noncomputable def computeRMS (buffer : List ℝ) : ℝ :=
  Real.sqrt ((buffer.map fun x => x * x).sum / buffer.length)

end Dsp

noncomputable def applyHammingWindow (buffer : List ℝ) : List ℝ :=
  (List.range buffer.length).map fun i =>
    buffer.getD i 0 *
      (0.54 - 0.46 * Real.cos ((2 * Real.pi * i) / ((buffer.length : ℝ) - 1)))

noncomputable def applyPreEmphasis (buffer : List ℝ) (coeff : ℝ) : List ℝ :=
  (List.range buffer.length).map fun i =>
    if i = 0 then buffer.getD 0 0
    else buffer.getD i 0 - coeff * buffer.getD (i - 1) 0

/-- `let p = 1; while (p < n) p *= 2; return p` (the `0 < p` guard holds on
every reachable call and only serves termination). -/
def nextPow2Go (n : ℕ) (p : ℕ) : ℕ :=
  if h : 0 < p ∧ p < n then nextPow2Go n (2 * p) else p
termination_by n - p
decreasing_by omega

def nextPowerOfTwo (n : ℕ) : ℕ := nextPow2Go n 1

def reverseBitsGo (x r : ℕ) : ℕ → ℕ
  | 0 => r
  | b + 1 => reverseBitsGo (x / 2) (2 * r + x % 2) b

def reverseBits (x bits : ℕ) : ℕ := reverseBitsGo x 0 bits

def swapStep (bits : ℕ) (st : List ℝ × List ℝ) (i : ℕ) : List ℝ × List ℝ :=
  let j := reverseBits i bits
  if j > i then
    ((st.1.set i (st.1.getD j 0)).set j (st.1.getD i 0),
     (st.2.set i (st.2.getD j 0)).set j (st.2.getD i 0))
  else st

noncomputable def butterfly (size i j : ℕ) (st : List ℝ × List ℝ) :
    List ℝ × List ℝ :=
  let halfSize := size / 2
  let angle := ((-2) * Real.pi / size) * j
  let twR := Real.cos angle
  let twI := Real.sin angle
  let evenIdx := i + j
  let oddIdx := i + j + halfSize
  let tR := twR * st.1.getD oddIdx 0 - twI * st.2.getD oddIdx 0
  let tI := twR * st.2.getD oddIdx 0 + twI * st.1.getD oddIdx 0
  ((st.1.set oddIdx (st.1.getD evenIdx 0 - tR)).set evenIdx (st.1.getD evenIdx 0 + tR),
   (st.2.set oddIdx (st.2.getD evenIdx 0 - tI)).set evenIdx (st.2.getD evenIdx 0 + tI))

noncomputable def fftPass (n size : ℕ) (st : List ℝ × List ℝ) :
    List ℝ × List ℝ :=
  ((List.range (n / size)).map (· * size)).foldl
    (fun st i => (List.range (size / 2)).foldl (fun st j => butterfly size i j st) st) st

noncomputable def fftLoops (n : ℕ) (st : List ℝ × List ℝ) : List ℝ × List ℝ :=
  ((List.range (Nat.log2 n)).map fun k => 2 ^ (k + 1)).foldl
    (fun st size => fftPass n size st) st

noncomputable def computeFFTMagnitude (buffer : List ℝ) : List ℝ :=
  let n := nextPowerOfTwo buffer.length
  let re0 := (List.range n).map fun i => buffer.getD i 0
  let im0 : List ℝ := List.replicate n 0
  let st1 := (List.range n).foldl (fun st i => swapStep (Nat.log2 n) st i) (re0, im0)
  let st2 := fftLoops n st1
  (List.range (n / 2 + 1)).map fun i =>
    Real.sqrt (st2.1.getD i 0 * st2.1.getD i 0 + st2.2.getD i 0 * st2.2.getD i 0)

/-- Both the real and the imaginary working array hold only zeros. -/
def ZeroPair (st : List ℝ × List ℝ) : Prop :=
  (∀ x ∈ st.1, x = 0) ∧ (∀ x ∈ st.2, x = 0)

theorem set_zero_preserves {l : List ℝ} (h : ∀ x ∈ l, x = 0) {i : ℕ} {a : ℝ}
    (ha : a = 0) : ∀ x ∈ l.set i a, x = 0 := fun x hx =>
  (List.mem_or_eq_of_mem_set hx).elim (h x) (fun e => e.trans ha)

theorem swapStep_zero (bits : ℕ) (i : ℕ) {st : List ℝ × List ℝ}
    (h : ZeroPair st) : ZeroPair (swapStep bits st i) := by
  obtain ⟨h1, h2⟩ := h
  unfold swapStep
  by_cases hij : reverseBits i bits > i
  · rw [if_pos hij]
    exact ⟨set_zero_preserves (set_zero_preserves h1
        (getD_eq_zero_of_all_zero h1 _)) (getD_eq_zero_of_all_zero h1 _),
      set_zero_preserves (set_zero_preserves h2
        (getD_eq_zero_of_all_zero h2 _)) (getD_eq_zero_of_all_zero h2 _)⟩
  · rw [if_neg hij]
    exact ⟨h1, h2⟩

theorem butterfly_zero (size i j : ℕ) {st : List ℝ × List ℝ}
    (h : ZeroPair st) : ZeroPair (butterfly size i j st) := by
  obtain ⟨h1, h2⟩ := h
  have hre := fun k => getD_eq_zero_of_all_zero h1 k
  have him := fun k => getD_eq_zero_of_all_zero h2 k
  unfold butterfly
  constructor
  · apply set_zero_preserves
    · apply set_zero_preserves h1
      rw [hre, hre, him]; ring
    · rw [hre, hre, him]; ring
  · apply set_zero_preserves
    · apply set_zero_preserves h2
      rw [him, him, hre]; ring
    · rw [him, him, hre]; ring

theorem fftPass_zero (n size : ℕ) {st : List ℝ × List ℝ} (h : ZeroPair st) :
    ZeroPair (fftPass n size st) := by
  unfold fftPass
  apply foldl_induction _ ZeroPair _ _ h
  intro st i hst
  exact foldl_induction _ ZeroPair _ _ hst (fun st j hj => butterfly_zero size i j hj)

theorem fftLoops_zero (n : ℕ) {st : List ℝ × List ℝ} (h : ZeroPair st) :
    ZeroPair (fftLoops n st) := by
  unfold fftLoops
  exact foldl_induction _ ZeroPair _ _ h (fun st size hst => fftPass_zero n size hst)

/-- C9: `computeFFTMagnitude` always returns `nextPow2(len)/2 + 1` magnitude
bins, and for an all-zero input buffer every returned magnitude is 0. -/
theorem computeFFTMagnitude_spec (buffer : List ℝ) :
    (computeFFTMagnitude buffer).length =
      nextPowerOfTwo buffer.length / 2 + 1 ∧
    ((∀ x ∈ buffer, x = 0) → ∀ m ∈ computeFFTMagnitude buffer, m = 0) := by
  constructor
  · unfold computeFFTMagnitude
    rw [List.length_map, List.length_range]
  · intro hz m hm
    unfold computeFFTMagnitude at hm
    obtain ⟨i, _, hi⟩ := List.mem_map.mp hm
    have h0 : ZeroPair
        ((List.range (nextPowerOfTwo buffer.length)).map (fun i => buffer.getD i 0),
          (List.replicate (nextPowerOfTwo buffer.length) (0 : ℝ))) := by
      constructor
      · intro x hx
        obtain ⟨k, _, hk⟩ := List.mem_map.mp hx
        rw [← hk]
        exact getD_eq_zero_of_all_zero hz k
      · intro x hx
        exact List.eq_of_mem_replicate hx
    have h1 : ZeroPair ((List.range (nextPowerOfTwo buffer.length)).foldl
        (fun st i => swapStep (Nat.log2 (nextPowerOfTwo buffer.length)) st i)
        ((List.range (nextPowerOfTwo buffer.length)).map (fun i => buffer.getD i 0),
          List.replicate (nextPowerOfTwo buffer.length) (0 : ℝ))) :=
      foldl_induction _ ZeroPair _ _ h0 (fun st i hst => swapStep_zero _ i hst)
    have h2 := fftLoops_zero (nextPowerOfTwo buffer.length) h1
    rw [← hi, getD_eq_zero_of_all_zero h2.1, getD_eq_zero_of_all_zero h2.2]
    simp

/-- Witness for C9 at the concrete all-zero buffer `[0, 0, 0]`. -/
theorem computeFFTMagnitude_spec_witness :
    (computeFFTMagnitude [0, 0, 0]).length = nextPowerOfTwo 3 / 2 + 1 ∧
      ∀ m ∈ computeFFTMagnitude [0, 0, 0], m = 0 :=
  ⟨(computeFFTMagnitude_spec [0, 0, 0]).1,
    (computeFFTMagnitude_spec [0, 0, 0]).2 (by simp)⟩

/-! ## YIN pitch detector (`src/audio/pitch.ts`) -/

def YIN_THRESHOLD : ℝ := 0.15

def MIN_FREQUENCY : ℝ := 80

def MAX_FREQUENCY : ℝ := 600

noncomputable def computeDifference (buffer : List ℝ) (maxLag : ℕ) : List ℝ :=
  let halfLen := min (buffer.length / 2) maxLag
  (List.range halfLen).map fun tau =>
    ((List.range halfLen).map fun i =>
      (buffer.getD i 0 - buffer.getD (i + tau) 0) *
        (buffer.getD i 0 - buffer.getD (i + tau) 0)).sum

noncomputable def cumulativeMeanNormalize (diff : List ℝ) : List ℝ :=
  (List.range diff.length).map fun tau =>
    if tau = 0 then 1
    else
      let runningSum := ((List.range' 1 tau).map fun j => diff.getD j 0).sum
      if runningSum = 0 then 0 else diff.getD tau 0 * tau / runningSum

/-- `while (tau + 1 < cmndf.length && cmndf[tau+1] < cmndf[tau]) tau++`. -/
noncomputable def walkToLocalMin (cmndf : List ℝ) (tau : ℕ) : ℕ :=
  if h : tau + 1 < cmndf.length ∧ cmndf.getD (tau + 1) 0 < cmndf.getD tau 0 then
    walkToLocalMin cmndf (tau + 1)
  else tau
termination_by cmndf.length - tau
decreasing_by omega

/-- Scan lags in `[minLag, cmndf.length - 2]` for the first dip below the
threshold, then walk forward to the local minimum of that dip. -/
noncomputable def findThresholdLag (cmndf : List ℝ) (minLag : ℕ) (threshold : ℝ) :
    Option ℕ :=
  match (List.range' minLag (cmndf.length - 1 - minLag)).find?
      (fun tau => decide (cmndf.getD tau 0 < threshold)) with
  | none => none
  | some tau => some (walkToLocalMin cmndf tau)

/-- Parabolic refinement of the winning lag; a zero denominator is exactly
the case where the source's `Number.isFinite(peak)` guard fails, and falls
back to the unrefined lag. -/
noncomputable def parabolicInterpolation (cmndf : List ℝ) (lag : ℕ) : ℝ :=
  if lag = 0 ∨ cmndf.length - 1 ≤ lag then lag
  else
    let alpha := cmndf.getD (lag - 1) 0
    let beta := cmndf.getD lag 0
    let gamma := cmndf.getD (lag + 1) 0
    let denom := alpha - 2 * beta + gamma
    if denom = 0 then lag else lag + 0.5 * (alpha - gamma) / denom

/-- `maxLag = Math.floor(sampleRate / MIN_FREQUENCY)`; `Math.floor` on the
positive sample rates the pipeline uses is `Nat.floor`. -/
noncomputable def pitchMaxLag (sampleRate : ℝ) : ℕ := ⌊sampleRate / MIN_FREQUENCY⌋₊

/-- `minLag = Math.floor(sampleRate / MAX_FREQUENCY)`. -/
noncomputable def pitchMinLag (sampleRate : ℝ) : ℕ := ⌊sampleRate / MAX_FREQUENCY⌋₊

/-- The `cmndf` local of `detectPitch`. -/
noncomputable def pitchCmndf (buffer : List ℝ) (sampleRate : ℝ) : List ℝ :=
  cumulativeMeanNormalize (computeDifference buffer (pitchMaxLag sampleRate))

noncomputable def detectPitch (buffer : List ℝ) (sampleRate : ℝ) : Option ℝ :=
  if buffer.length < 2 then none
  else if buffer.length < 2 * pitchMaxLag sampleRate then none
  else
    match findThresholdLag (pitchCmndf buffer sampleRate) (pitchMinLag sampleRate)
        YIN_THRESHOLD with
    | none => none
    | some lag =>
      if parabolicInterpolation (pitchCmndf buffer sampleRate) lag ≤ 0 then none
      else if sampleRate / parabolicInterpolation (pitchCmndf buffer sampleRate) lag
              < MIN_FREQUENCY ∨
            sampleRate / parabolicInterpolation (pitchCmndf buffer sampleRate) lag
              > MAX_FREQUENCY then none
      else some (sampleRate / parabolicInterpolation (pitchCmndf buffer sampleRate) lag)

theorem computeDifference_short (buffer : List ℝ) (maxLag : ℕ)
    (h : buffer.length < 2) : computeDifference buffer maxLag = [] := by
  unfold computeDifference
  rw [Nat.div_eq_of_lt h]
  simp

theorem findThresholdLag_nil (minLag : ℕ) (threshold : ℝ) :
    findThresholdLag [] minLag threshold = none := by
  unfold findThresholdLag
  simp

theorem cumulativeMeanNormalize_nil : cumulativeMeanNormalize [] = [] := by
  unfold cumulativeMeanNormalize
  simp

/-- C3: `detectPitch` returns absent exactly when the buffer is shorter than
`2 * maxLag`, or no lag's cumulative-mean-normalized difference dips below
the threshold in the scanned range, or the parabolically refined frequency
falls outside `[80, 600]` Hz (a nonpositive refined lag yields a frequency
below 80); in every other case the returned frequency lies in `[80, 600]`. -/
theorem detectPitch_absent_or_in_range (buffer : List ℝ) (sampleRate : ℝ)
    (hsr : 0 < sampleRate) :
    (∀ f, detectPitch buffer sampleRate = some f →
      MIN_FREQUENCY ≤ f ∧ f ≤ MAX_FREQUENCY) ∧
    (detectPitch buffer sampleRate = none ↔
      buffer.length < 2 * pitchMaxLag sampleRate ∨
      findThresholdLag (pitchCmndf buffer sampleRate) (pitchMinLag sampleRate)
        YIN_THRESHOLD = none ∨
      ∃ lag,
        findThresholdLag (pitchCmndf buffer sampleRate) (pitchMinLag sampleRate)
          YIN_THRESHOLD = some lag ∧
        (sampleRate / parabolicInterpolation (pitchCmndf buffer sampleRate) lag
            < MIN_FREQUENCY ∨
         sampleRate / parabolicInterpolation (pitchCmndf buffer sampleRate) lag
            > MAX_FREQUENCY)) := by
  by_cases h2 : buffer.length < 2
  · have hd : detectPitch buffer sampleRate = none := by
      unfold detectPitch
      rw [if_pos h2]
    have hB : findThresholdLag (pitchCmndf buffer sampleRate)
        (pitchMinLag sampleRate) YIN_THRESHOLD = none := by
      rw [pitchCmndf, computeDifference_short buffer _ h2,
        cumulativeMeanNormalize_nil, findThresholdLag_nil]
    refine ⟨fun f hf => (by rw [hd] at hf; cases hf), ?_⟩
    exact ⟨fun _ => Or.inr (Or.inl hB), fun _ => hd⟩
  · by_cases hA : buffer.length < 2 * pitchMaxLag sampleRate
    · have hd : detectPitch buffer sampleRate = none := by
        unfold detectPitch
        rw [if_neg h2, if_pos hA]
      refine ⟨fun f hf => (by rw [hd] at hf; cases hf), ?_⟩
      exact ⟨fun _ => Or.inl hA, fun _ => hd⟩
    · cases hfind : findThresholdLag (pitchCmndf buffer sampleRate)
          (pitchMinLag sampleRate) YIN_THRESHOLD with
      | none =>
        have hd : detectPitch buffer sampleRate = none := by
          unfold detectPitch
          rw [if_neg h2, if_neg hA, hfind]
        refine ⟨fun f hf => (by rw [hd] at hf; cases hf), ?_⟩
        exact ⟨fun _ => Or.inr (Or.inl rfl), fun _ => hd⟩
      | some lag =>
        by_cases hneg : parabolicInterpolation (pitchCmndf buffer sampleRate) lag ≤ 0
        · have hd : detectPitch buffer sampleRate = none := by
            unfold detectPitch
            rw [if_neg h2, if_neg hA, hfind]
            simp only [if_pos hneg]
          have hout : sampleRate /
              parabolicInterpolation (pitchCmndf buffer sampleRate) lag
                < MIN_FREQUENCY := by
            have h80 : (0 : ℝ) < MIN_FREQUENCY := by norm_num [MIN_FREQUENCY]
            rcases lt_or_eq_of_le hneg with hlt | heq
            · have := div_neg_of_pos_of_neg hsr hlt
              linarith
            · rw [heq, div_zero]
              exact h80
          refine ⟨fun f hf => (by rw [hd] at hf; cases hf), ?_⟩
          exact ⟨fun _ => Or.inr (Or.inr ⟨lag, rfl, Or.inl hout⟩), fun _ => hd⟩
        · by_cases hout : sampleRate /
              parabolicInterpolation (pitchCmndf buffer sampleRate) lag
                < MIN_FREQUENCY ∨
              sampleRate /
              parabolicInterpolation (pitchCmndf buffer sampleRate) lag
                > MAX_FREQUENCY
          · have hd : detectPitch buffer sampleRate = none := by
              unfold detectPitch
              rw [if_neg h2, if_neg hA, hfind]
              simp only [if_neg hneg, if_pos hout]
            refine ⟨fun f hf => (by rw [hd] at hf; cases hf), ?_⟩
            exact ⟨fun _ => Or.inr (Or.inr ⟨lag, rfl, hout⟩), fun _ => hd⟩
          · have hd : detectPitch buffer sampleRate =
                some (sampleRate /
                  parabolicInterpolation (pitchCmndf buffer sampleRate) lag) := by
              unfold detectPitch
              rw [if_neg h2, if_neg hA, hfind]
              simp only [if_neg hneg, if_neg hout]
            push_neg at hout
            refine ⟨?_, ?_⟩
            · intro f hf
              rw [hd] at hf
              rw [← Option.some.inj hf]
              exact ⟨hout.1, hout.2⟩
            · constructor
              · intro hnone
                rw [hd] at hnone
                cases hnone
              · rintro (h | h | ⟨lag2, hl2, hout2⟩)
                · exact absurd h hA
                · cases h
                · have : lag2 = lag := (Option.some.inj hl2).symm
                  subst this
                  rcases hout2 with h | h
                  · exact absurd h (not_lt.mpr hout.1)
                  · exact absurd h (not_lt.mpr hout.2)

/-- Witness for C3 at a concrete input: a two-sample buffer at 44100 Hz is
shorter than `2 * maxLag = 1102`, so pitch is absent. -/
theorem detectPitch_absent_or_in_range_witness :
    detectPitch [1, 0] 44100 = none :=
  ((detectPitch_absent_or_in_range [1, 0] 44100 (by norm_num)).2).mpr
    (Or.inl (by
      show 2 < 2 * pitchMaxLag 44100
      rw [pitchMaxLag]
      norm_num [MIN_FREQUENCY]
      exact lt_of_lt_of_le (show (1 : ℕ) < 551 by norm_num)
        (Nat.le_floor (by norm_num))))

/-! ## Peak analysis (`src/audio/peaks.ts`) -/

noncomputable def findPeakInRange (magnitudes : List ℝ)
    (sampleRate minHz maxHz : ℝ) : ℝ :=
  let n := (magnitudes.length - 1) * 2
  let binToHz := sampleRate / n
  let minBin := max 1 ⌈minHz / binToHz⌉₊
  let maxBin := min (magnitudes.length - 1) ⌊maxHz / binToHz⌋₊
  let best := ((List.range (maxBin + 1 - (minBin + 1))).map (· + (minBin + 1))).foldl
    (fun (acc : ℕ × ℝ) i =>
      if magnitudes.getD i 0 > acc.2 then (i, magnitudes.getD i 0) else acc)
    (minBin, magnitudes.getD minBin 0)
  let peakBin := best.1
  if minBin < peakBin ∧ peakBin < maxBin then
    let alpha := magnitudes.getD (peakBin - 1) 0
    let beta := magnitudes.getD peakBin 0
    let gamma := magnitudes.getD (peakBin + 1) 0
    let denom := alpha - 2 * beta + gamma
    if denom ≠ 0 then ((peakBin : ℝ) + 0.5 * (alpha - gamma) / denom) * binToHz
    else (peakBin : ℝ) * binToHz
  else (peakBin : ℝ) * binToHz

/-- Spectral peaks as (frequency, magnitude) pairs: positive-to-nonpositive
first-difference sign changes, each parabolically refined. -/
noncomputable def findPeaksByDerivative (envelope : List ℝ)
    (sampleRate minHz maxHz : ℝ) : List (ℝ × ℝ) :=
  let n := (envelope.length - 1) * 2
  let binToHz := sampleRate / n
  let minBin := max 1 ⌈minHz / binToHz⌉₊
  let maxBin := min (envelope.length - 3) ⌊maxHz / binToHz⌋₊
  ((List.range (maxBin + 1 - minBin)).map (· + minBin)).filterMap fun i =>
    let d0 := envelope.getD i 0 - envelope.getD (i - 1) 0
    let d1 := envelope.getD (i + 1) 0 - envelope.getD i 0
    if d0 > 0 ∧ d1 ≤ 0 then
      let alpha := envelope.getD (i - 1) 0
      let beta := envelope.getD i 0
      let gamma := envelope.getD (i + 1) 0
      let denom := alpha - 2 * beta + gamma
      some (if denom ≠ 0 then ((i : ℝ) + 0.5 * (alpha - gamma) / denom) * binToHz
        else (i : ℝ) * binToHz, beta)
    else none

/-- `peakMagnitudeAt` from `dsp.ts`: `Math.round` is `⌊x + 1/2⌋`, then the
bin index is clamped into the array. -/
noncomputable def peakMagnitudeAt (magnitudes : List ℝ)
    (sampleRate freqHz : ℝ) : ℝ :=
  let n := (magnitudes.length - 1) * 2
  let bin : ℤ := ⌊freqHz * n / sampleRate + 1 / 2⌋
  let clamped := max 0 (min ((magnitudes.length : ℤ) - 1) bin)
  magnitudes.getD clamped.toNat 0

/-! ## Vowel scorers (`src/audio/scoring.ts`) -/

/-- `scores.sort((a, b) => b.score - a.score)`. -/
noncomputable def sortByScoreDesc (scores : List (Vowel × ℝ)) : List (Vowel × ℝ) :=
  scores.mergeSort (fun a b => decide (b.2 ≤ a.2))

/-- Sum of the envelope over the clamped band `[center-half, center+half]`. -/
noncomputable def bandSumAround (envelope : List ℝ) (binToHz : ℝ)
    (halfBandBins : ℕ) (centerHz : ℝ) : ℝ :=
  let centerBin : ℤ := ⌊centerHz / binToHz + 1 / 2⌋
  let lo := max 0 (centerBin - halfBandBins)
  let hi := min ((envelope.length : ℤ) - 1) (centerBin + halfBandBins)
  ((List.range (hi + 1 - lo).toNat).map fun k =>
    envelope.getD (lo.toNat + k) 0).sum

noncomputable def scoreByBandEnergy (envelope : List ℝ) (sampleRate : ℝ) :
    List (Vowel × ℝ) :=
  let n := (envelope.length - 1) * 2
  let binToHz := sampleRate / n
  let halfBandBins := ⌈(100 : ℝ) / (2 * binToHz)⌉₊
  let totalEnergy := if envelope.sum = 0 then 1 else envelope.sum
  sortByScoreDesc (VOWEL_TARGETS.map fun t =>
    (t.vowel,
      bandSumAround envelope binToHz halfBandBins t.f1 * 2 / totalEnergy +
      bandSumAround envelope binToHz halfBandBins t.f2 * 1 / totalEnergy +
      bandSumAround envelope binToHz halfBandBins t.f3 * 0.5 / totalEnergy))

/-- Running minimum of Bark distances from the peaks to a target
(`none` models the initial `Infinity`). -/
noncomputable def nearestBarkDist (peaks : List (ℝ × ℝ)) (targetB : ℝ) :
    Option ℝ :=
  peaks.foldl (fun acc p =>
    match acc with
    | none => some |hzToBark p.1 - targetB|
    | some bd => if |hzToBark p.1 - targetB| < bd
        then some |hzToBark p.1 - targetB| else acc) none

open Classical in
noncomputable def scoreByPeakProximity (envelope : List ℝ) (sampleRate : ℝ) :
    List (Vowel × ℝ) :=
  let peaks := findPeaksByDerivative envelope sampleRate 100 4000
  if peaks.length < 2 then VOWEL_TARGETS.map fun t => (t.vowel, 0)
  else sortByScoreDesc (VOWEL_TARGETS.map fun t =>
    match nearestBarkDist peaks (hzToBark t.f1),
        nearestBarkDist peaks (hzToBark t.f2),
        nearestBarkDist peaks (hzToBark t.f3) with
    | some d1, some d2, some d3 =>
      if d1 > 1.5 ∨ d2 > 2.0 then (t.vowel, 0)
      else (t.vowel, 1 / (1 + (2 * d1 * d1 + d2 * d2 + 0.5 * d3 * d3)))
    | _, _, _ => (t.vowel, 0))

/-! ## LPC envelope and ensemble detector (`src/audio/lpc.ts`, `detectLpc.ts`) -/

noncomputable def evaluateLpcEnvelope (coeffs : List ℝ) (gain : ℝ) (numBins : ℕ)
    (decimatedSampleRate originalSampleRate : ℝ) (originalFftSize : ℕ) :
    List ℝ :=
  (List.range numBins).map fun i =>
    let freq := (i : ℝ) * originalSampleRate / originalFftSize
    if freq > decimatedSampleRate / 2 then 0
    else
      let omega := 2 * Real.pi * freq / decimatedSampleRate
      let aReal := 1 - ((List.range coeffs.length).map fun k =>
        coeffs.getD k 0 * Real.cos (((k : ℝ) + 1) * omega)).sum
      let aImag := ((List.range coeffs.length).map fun k =>
        coeffs.getD k 0 * Real.sin (((k : ℝ) + 1) * omega)).sum
      gain / Real.sqrt (aReal * aReal + aImag * aImag)

/-- The LPC spectral envelope computed by `detectVowel` before gating:
pre-emphasis, Hamming window, decimation to ~8.5 kHz, autocorrelation,
Levinson-Durbin, and envelope evaluation on the FFT bin grid. -/
noncomputable def lpcEnvelopeOf (buffer : List ℝ) (sampleRate : ℝ) : List ℝ :=
  let windowed := applyHammingWindow (applyPreEmphasis buffer 0.97)
  let decimationFactor := max 1 ⌊sampleRate / 8500⌋₊
  let decimated := decimateSignal windowed decimationFactor
  let ld := levinsonDurbin (computeAutocorrelation decimated LPC_ORDER) LPC_ORDER
  let magnitudes := computeFFTMagnitude windowed
  evaluateLpcEnvelope ld.coeffs ld.gain magnitudes.length
    (sampleRate / decimationFactor) sampleRate ((magnitudes.length - 1) * 2)

/-- The band-energy ratio of `detectVowel`'s fallback gate: energy in a
±100 Hz band (`bandWidthHz = 200`) around the target over total energy. -/
noncomputable def bandEnergyRatio (envelope : List ℝ)
    (sampleRate centerHz : ℝ) : ℝ :=
  let n := (envelope.length - 1) * 2
  let binToHz := sampleRate / n
  let halfBandBins := ⌈(200 : ℝ) / (2 * binToHz)⌉₊
  let totalEnergy := if envelope.sum = 0 then 1 else envelope.sum
  bandSumAround envelope binToHz halfBandBins centerHz / totalEnergy

open Classical in
/-- Step 2 of `detectVowel` (lines 38-87): a vowel is eligible when a real
derivative peak lies within 1.5 Bark of its target F1 and within 2.0 Bark of
its target F2, or its F1/F2 band-energy ratios exceed 0.08 and 0.04. -/
noncomputable def eligibleVowels (envelope : List ℝ) (sampleRate : ℝ) :
    List Vowel :=
  let peaks := findPeaksByDerivative envelope sampleRate 100 4000
  VOWEL_TARGETS.filterMap fun t =>
    let peakGate := (∃ d, nearestBarkDist peaks (hzToBark t.f1) = some d ∧ d ≤ 1.5) ∧
      (∃ d, nearestBarkDist peaks (hzToBark t.f2) = some d ∧ d ≤ 2.0)
    let energyGate := bandEnergyRatio envelope sampleRate t.f1 > 0.08 ∧
      bandEnergyRatio envelope sampleRate t.f2 > 0.04
    if peakGate ∨ energyGate then some t.vowel else none

/-- Step 3's guided template matching (lines 95-116). -/
noncomputable def templateScores (lpcEnvelope : List ℝ) (sampleRate : ℝ) :
    List (Vowel × ℝ) :=
  sortByScoreDesc (VOWEL_TARGETS.map fun t =>
    let f1 := findPeakInRange lpcEnvelope sampleRate (max 100 (t.f1 - 200)) (t.f1 + 200)
    let f2 := findPeakInRange lpcEnvelope sampleRate (max (t.f1 + 100) (t.f2 - 300)) (t.f2 + 300)
    let f3 := findPeakInRange lpcEnvelope sampleRate (max (t.f2 + 100) (t.f3 - 400)) (t.f3 + 400)
    let f1Mag := peakMagnitudeAt lpcEnvelope sampleRate f1
    let f2Mag := peakMagnitudeAt lpcEnvelope sampleRate f2
    let d1 := hzToBark f1 - hzToBark t.f1
    let d2 := hzToBark f2 - hzToBark t.f2
    let d3 := hzToBark f3 - hzToBark t.f3
    (t.vowel, (f1Mag + f2Mag) / (1 + (2 * d1 * d1 + d2 * d2 + 0.5 * d3 * d3))))

/-- `fusedScores.set(v, (fusedScores.get(v) ?? 0) + w)` over the reals. -/
noncomputable def upsertScore (m : List (Vowel × ℝ)) (v : Vowel) (w : ℝ) :
    List (Vowel × ℝ) :=
  match m with
  | [] => [(v, w)]
  | (k, s) :: t => if k = v then (k, s + w) :: t else (k, s) :: upsertScore t v w

/-- One scorer's contribution to reciprocal rank fusion: for each ranked
entry restricted to the eligible set, add `1 / (10 + rank)`. -/
noncomputable def rrfAdd (eligible : List Vowel) (m : List (Vowel × ℝ))
    (ranking : List (Vowel × ℝ)) : List (Vowel × ℝ) :=
  ranking.enum.foldl (fun m p =>
    if p.2.1 ∈ eligible then upsertScore m p.2.1 (1 / ((10 : ℝ) + p.1)) else m) m

/-- The final argmax over the fused scores, seeded with `bestFused =
-Infinity` (which every real score beats, modeled by `none`). -/
noncomputable def pickBestFused (m : List (Vowel × ℝ)) : Option Vowel :=
  (m.foldl (fun (acc : Option (Vowel × ℝ)) e =>
    match acc with
    | none => some e
    | some b => if e.2 > b.2 then some e else some b) none).map Prod.fst

noncomputable def detectVowel (buffer : List ℝ) (sampleRate : ℝ) : Option Vowel :=
  if Dsp.computeRMS buffer < ENERGY_THRESHOLD then none
  else if eligibleVowels (lpcEnvelopeOf buffer sampleRate) sampleRate = [] then none
  else
    pickBestFused
      (rrfAdd (eligibleVowels (lpcEnvelopeOf buffer sampleRate) sampleRate)
        (rrfAdd (eligibleVowels (lpcEnvelopeOf buffer sampleRate) sampleRate)
          (rrfAdd (eligibleVowels (lpcEnvelopeOf buffer sampleRate) sampleRate) []
            (scoreByBandEnergy (lpcEnvelopeOf buffer sampleRate) sampleRate))
          (templateScores (lpcEnvelopeOf buffer sampleRate) sampleRate))
        (scoreByPeakProximity (lpcEnvelopeOf buffer sampleRate) sampleRate))

theorem upsertScore_keys_subset {m : List (Vowel × ℝ)} {v x : Vowel} {w : ℝ}
    (h : x ∈ (upsertScore m v w).map Prod.fst) :
    x ∈ m.map Prod.fst ∨ x = v := by
  induction m with
  | nil => simp [upsertScore] at h; right; exact h
  | cons e t ih =>
    obtain ⟨k, s⟩ := e
    by_cases hk : k = v
    · simp only [upsertScore, if_pos hk, List.map_cons, List.mem_cons] at h ⊢
      tauto
    · simp only [upsertScore, if_neg hk, List.map_cons, List.mem_cons] at h ⊢
      rcases h with h | h
      · tauto
      · rcases ih h with h2 | h2 <;> tauto

theorem upsertScore_keys_mono {m : List (Vowel × ℝ)} {x : Vowel} (v : Vowel)
    (w : ℝ) (h : x ∈ m.map Prod.fst) : x ∈ (upsertScore m v w).map Prod.fst := by
  induction m with
  | nil => simp at h
  | cons e t ih =>
    obtain ⟨k, s⟩ := e
    by_cases hk : k = v
    · simpa [upsertScore, hk] using h
    · simp only [upsertScore, if_neg hk, List.map_cons, List.mem_cons] at h ⊢
      rcases h with h | h
      · exact Or.inl h
      · exact Or.inr (ih h)

theorem upsertScore_keys_self (m : List (Vowel × ℝ)) (v : Vowel) (w : ℝ) :
    v ∈ (upsertScore m v w).map Prod.fst := by
  induction m with
  | nil => simp [upsertScore]
  | cons e t ih =>
    obtain ⟨k, s⟩ := e
    by_cases hk : k = v
    · simp [upsertScore, hk]
    · simp only [upsertScore, if_neg hk, List.map_cons, List.mem_cons]
      exact Or.inr ih

theorem rrfFold_keys_subset (eligible : List Vowel)
    (l : List (ℕ × (Vowel × ℝ))) (m : List (Vowel × ℝ)) {x : Vowel}
    (h : x ∈ (l.foldl (fun m p =>
      if p.2.1 ∈ eligible then upsertScore m p.2.1 (1 / ((10 : ℝ) + p.1)) else m)
        m).map Prod.fst) :
    x ∈ m.map Prod.fst ∨ x ∈ eligible := by
  induction l generalizing m with
  | nil => exact Or.inl h
  | cons p t ih =>
    simp only [List.foldl_cons] at h
    rcases ih _ h with h2 | h2
    · by_cases hp : p.2.1 ∈ eligible
      · rw [if_pos hp] at h2
        rcases upsertScore_keys_subset h2 with h3 | h3
        · exact Or.inl h3
        · exact Or.inr (h3 ▸ hp)
      · rw [if_neg hp] at h2
        exact Or.inl h2
    · exact Or.inr h2

theorem rrfFold_keys_mono (eligible : List Vowel)
    (l : List (ℕ × (Vowel × ℝ))) (m : List (Vowel × ℝ)) {x : Vowel}
    (h : x ∈ m.map Prod.fst) :
    x ∈ (l.foldl (fun m p =>
      if p.2.1 ∈ eligible then upsertScore m p.2.1 (1 / ((10 : ℝ) + p.1)) else m)
        m).map Prod.fst := by
  induction l generalizing m with
  | nil => exact h
  | cons p t ih =>
    simp only [List.foldl_cons]
    apply ih
    by_cases hp : p.2.1 ∈ eligible
    · rw [if_pos hp]
      exact upsertScore_keys_mono _ _ h
    · rwa [if_neg hp]

theorem rrfFold_keys_add (eligible : List Vowel)
    (l : List (ℕ × (Vowel × ℝ))) (m : List (Vowel × ℝ)) {x : Vowel}
    (hx : x ∈ eligible) (hl : ∃ p ∈ l, p.2.1 = x) :
    x ∈ (l.foldl (fun m p =>
      if p.2.1 ∈ eligible then upsertScore m p.2.1 (1 / ((10 : ℝ) + p.1)) else m)
        m).map Prod.fst := by
  induction l generalizing m with
  | nil => obtain ⟨p, hp, _⟩ := hl; simp at hp
  | cons p t ih =>
    simp only [List.foldl_cons]
    obtain ⟨q, hq, hqx⟩ := hl
    rcases List.mem_cons.mp hq with hq1 | hq1
    · subst hq1
      rw [if_pos (hqx ▸ hx)]
      apply rrfFold_keys_mono
      rw [hqx]
      exact upsertScore_keys_self m x _
    · exact ih _ ⟨q, hq1, hqx⟩

theorem mem_enum_of_mem {α : Type*} {x : α} {l : List α} (h : x ∈ l) :
    ∃ p ∈ l.enum, p.2 = x := by
  have h2 : x ∈ l.enum.map Prod.snd := by rw [List.enum_map_snd]; exact h
  obtain ⟨p, hp, hpx⟩ := List.mem_map.mp h2
  exact ⟨p, hp, hpx⟩

theorem rrfAdd_keys_subset {eligible : List Vowel} {m ranking : List (Vowel × ℝ)}
    {x : Vowel} (h : x ∈ (rrfAdd eligible m ranking).map Prod.fst) :
    x ∈ m.map Prod.fst ∨ x ∈ eligible :=
  rrfFold_keys_subset eligible ranking.enum m h

theorem rrfAdd_keys_mono {eligible : List Vowel} {m ranking : List (Vowel × ℝ)}
    {x : Vowel} (h : x ∈ m.map Prod.fst) :
    x ∈ (rrfAdd eligible m ranking).map Prod.fst :=
  rrfFold_keys_mono eligible ranking.enum m h

theorem rrfAdd_keys_of_ranked {eligible : List Vowel}
    {m ranking : List (Vowel × ℝ)} {x : Vowel} (hx : x ∈ eligible)
    (hr : x ∈ ranking.map Prod.fst) :
    x ∈ (rrfAdd eligible m ranking).map Prod.fst := by
  obtain ⟨e, he, hex⟩ := List.mem_map.mp hr
  obtain ⟨p, hp, hpe⟩ := mem_enum_of_mem he
  exact rrfFold_keys_add eligible ranking.enum m hx ⟨p, hp, by rw [hpe, hex]⟩

theorem pickFold_some (l : List (Vowel × ℝ)) (b : Vowel × ℝ) :
    ∃ c, l.foldl (fun (acc : Option (Vowel × ℝ)) e =>
      match acc with
      | none => some e
      | some b => if e.2 > b.2 then some e else some b) (some b) = some c := by
  induction l generalizing b with
  | nil => exact ⟨b, rfl⟩
  | cons e t ih =>
    simp only [List.foldl_cons]
    by_cases he : e.2 > b.2
    · simpa [he] using ih e
    · simpa [he] using ih b

theorem pickBestFused_ne_none {m : List (Vowel × ℝ)} (h : m ≠ []) :
    pickBestFused m ≠ none := by
  cases m with
  | nil => exact absurd rfl h
  | cons e t =>
    unfold pickBestFused
    simp only [List.foldl_cons]
    obtain ⟨c, hc⟩ := pickFold_some t e
    rw [hc]
    simp

theorem pickFold_mem (l : List (Vowel × ℝ)) (acc : Option (Vowel × ℝ)) :
    l.foldl (fun (acc : Option (Vowel × ℝ)) e =>
      match acc with
      | none => some e
      | some b => if e.2 > b.2 then some e else some b) acc = acc ∨
    ∃ e ∈ l, l.foldl (fun (acc : Option (Vowel × ℝ)) e =>
      match acc with
      | none => some e
      | some b => if e.2 > b.2 then some e else some b) acc = some e := by
  induction l generalizing acc with
  | nil => exact Or.inl rfl
  | cons x t ih =>
    simp only [List.foldl_cons]
    generalize hacc : (match acc with
        | none => some x
        | some b => if x.2 > b.2 then some x else some b) = acc1
    have hstep : acc1 = some x ∨ acc1 = acc := by
      rw [← hacc]
      cases acc with
      | none => exact Or.inl rfl
      | some b =>
        by_cases hx : x.2 > b.2
        · simp [hx]
        · simp [hx]
    rcases ih acc1 with h | h
    · rcases hstep with h2 | h2
      · right
        exact ⟨x, List.mem_cons_self _ _, h.trans h2⟩
      · left
        exact h.trans h2
    · obtain ⟨e, he, hee⟩ := h
      right
      exact ⟨e, List.mem_cons_of_mem _ he, hee⟩

theorem pickBestFused_mem {m : List (Vowel × ℝ)} {v : Vowel}
    (h : pickBestFused m = some v) : v ∈ m.map Prod.fst := by
  unfold pickBestFused at h
  rcases pickFold_mem m none with h2 | h2
  · rw [h2] at h
    exact absurd h (by simp)
  · obtain ⟨e, he, hee⟩ := h2
    rw [hee] at h
    have hev : e.1 = v := by simpa using h
    rw [← hev]
    exact List.mem_map_of_mem Prod.fst he

theorem mem_keys_sortByScoreDesc {l : List (Vowel × ℝ)} {x : Vowel} :
    x ∈ (sortByScoreDesc l).map Prod.fst ↔ x ∈ l.map Prod.fst :=
  ((List.mergeSort_perm l _).map Prod.fst).mem_iff

theorem eligible_subset_targets {envelope : List ℝ} {sampleRate : ℝ} {v : Vowel}
    (h : v ∈ eligibleVowels envelope sampleRate) :
    v ∈ VOWEL_TARGETS.map VowelTarget.vowel := by
  unfold eligibleVowels at h
  obtain ⟨t, ht, hv⟩ := List.mem_filterMap.mp h
  simp only at hv
  split_ifs at hv with hc
  rw [← Option.some.inj hv]
  exact List.mem_map_of_mem VowelTarget.vowel ht

theorem mem_keys_scoreByBandEnergy {envelope : List ℝ} {sampleRate : ℝ}
    {v : Vowel} (h : v ∈ VOWEL_TARGETS.map VowelTarget.vowel) :
    v ∈ (scoreByBandEnergy envelope sampleRate).map Prod.fst := by
  unfold scoreByBandEnergy
  rw [mem_keys_sortByScoreDesc, List.map_map]
  simpa [Function.comp] using h

/-- C2: `detectVowel` returns absent when the buffer's RMS energy is below
0.01; at or above that threshold it returns absent exactly when no vowel is
eligible (peak-proximity gate within 1.5/2.0 Bark of target F1/F2, or band
energy ratios above 0.08/0.04), and any returned vowel is a member of the
eligible set. -/
theorem detectVowel_gating (buffer : List ℝ) (sampleRate : ℝ) :
    (Dsp.computeRMS buffer < ENERGY_THRESHOLD →
      detectVowel buffer sampleRate = none) ∧
    (¬ Dsp.computeRMS buffer < ENERGY_THRESHOLD →
      ((detectVowel buffer sampleRate = none ↔
        eligibleVowels (lpcEnvelopeOf buffer sampleRate) sampleRate = []) ∧
       ∀ v, detectVowel buffer sampleRate = some v →
        v ∈ eligibleVowels (lpcEnvelopeOf buffer sampleRate) sampleRate)) := by
  constructor
  · intro h
    unfold detectVowel
    rw [if_pos h]
  · intro h
    by_cases he : eligibleVowels (lpcEnvelopeOf buffer sampleRate) sampleRate = []
    · have hd : detectVowel buffer sampleRate = none := by
        unfold detectVowel
        rw [if_neg h, if_pos he]
      refine ⟨by rw [hd]; exact ⟨fun _ => he, fun _ => rfl⟩, fun v hv => ?_⟩
      rw [hd] at hv
      cases hv
    · obtain ⟨v0, hv0⟩ := List.exists_mem_of_ne_nil _ he
      have hv0band : v0 ∈ (scoreByBandEnergy (lpcEnvelopeOf buffer sampleRate) sampleRate).map Prod.fst :=
        mem_keys_scoreByBandEnergy (eligible_subset_targets hv0)
      have hkey1 : v0 ∈ (rrfAdd (eligibleVowels (lpcEnvelopeOf buffer sampleRate) sampleRate) []
          (scoreByBandEnergy (lpcEnvelopeOf buffer sampleRate) sampleRate)).map Prod.fst :=
        rrfAdd_keys_of_ranked hv0 hv0band
      have hkey2 : v0 ∈ (rrfAdd (eligibleVowels (lpcEnvelopeOf buffer sampleRate) sampleRate)
          (rrfAdd (eligibleVowels (lpcEnvelopeOf buffer sampleRate) sampleRate) []
            (scoreByBandEnergy (lpcEnvelopeOf buffer sampleRate) sampleRate))
          (templateScores (lpcEnvelopeOf buffer sampleRate) sampleRate)).map Prod.fst :=
        rrfAdd_keys_mono hkey1
      have hkey3 : v0 ∈ (rrfAdd (eligibleVowels (lpcEnvelopeOf buffer sampleRate) sampleRate)
        (rrfAdd (eligibleVowels (lpcEnvelopeOf buffer sampleRate) sampleRate)
          (rrfAdd (eligibleVowels (lpcEnvelopeOf buffer sampleRate) sampleRate) []
            (scoreByBandEnergy (lpcEnvelopeOf buffer sampleRate) sampleRate))
          (templateScores (lpcEnvelopeOf buffer sampleRate) sampleRate))
        (scoreByPeakProximity (lpcEnvelopeOf buffer sampleRate) sampleRate)).map Prod.fst :=
        rrfAdd_keys_mono hkey2
      have hfne : (rrfAdd (eligibleVowels (lpcEnvelopeOf buffer sampleRate) sampleRate)
        (rrfAdd (eligibleVowels (lpcEnvelopeOf buffer sampleRate) sampleRate)
          (rrfAdd (eligibleVowels (lpcEnvelopeOf buffer sampleRate) sampleRate) []
            (scoreByBandEnergy (lpcEnvelopeOf buffer sampleRate) sampleRate))
          (templateScores (lpcEnvelopeOf buffer sampleRate) sampleRate))
        (scoreByPeakProximity (lpcEnvelopeOf buffer sampleRate) sampleRate)) ≠ [] := by
        intro hnil
        rw [hnil] at hkey3
        simp at hkey3
      have hd : detectVowel buffer sampleRate =
          pickBestFused
            (rrfAdd (eligibleVowels (lpcEnvelopeOf buffer sampleRate) sampleRate)
        (rrfAdd (eligibleVowels (lpcEnvelopeOf buffer sampleRate) sampleRate)
          (rrfAdd (eligibleVowels (lpcEnvelopeOf buffer sampleRate) sampleRate) []
            (scoreByBandEnergy (lpcEnvelopeOf buffer sampleRate) sampleRate))
          (templateScores (lpcEnvelopeOf buffer sampleRate) sampleRate))
        (scoreByPeakProximity (lpcEnvelopeOf buffer sampleRate) sampleRate)) := by
        unfold detectVowel
        rw [if_neg h, if_neg he]
      constructor
      · rw [hd]
        constructor
        · intro hn
          exact absurd hn (pickBestFused_ne_none hfne)
        · intro hnil
          exact absurd hnil he
      · intro v hv
        rw [hd] at hv
        have hk := pickBestFused_mem hv
        rcases rrfAdd_keys_subset hk with hk2 | hk2
        · rcases rrfAdd_keys_subset hk2 with hk3 | hk3
          · rcases rrfAdd_keys_subset hk3 with hk4 | hk4
            · simp at hk4
            · exact hk4
          · exact hk3
        · exact hk2

/-- Witness for C2 at a concrete input: the empty buffer has RMS 0, below
the 0.01 energy threshold, so no vowel is reported. -/
theorem detectVowel_gating_witness : detectVowel [] 44100 = none :=
  (detectVowel_gating [] 44100).1 (by
    unfold Dsp.computeRMS ENERGY_THRESHOLD
    norm_num [Real.sqrt_zero])
